import Mathlib

/-!
Verification development for the stacked-branch graph subsystem of the
`sage-rs` repository.

Shallow embedding notes:

* Rust `HashMap<K, V>` values are modelled as association lists
  (`List (K × V)`) in which `insert` replaces the value of an existing key
  in place and appends unknown keys at the end.  This makes the model's
  iteration order the key-insertion order.  Rust's `std::collections::HashMap`
  does **not** guarantee any iteration order; wherever a property genuinely
  depends on iteration order (the `find` calls in `current_tip` and
  `from_commits`) the iteration order is taken as an explicit parameter
  ranging over all permutations of the entry list.
* `BranchName` is a `#[serde(transparent)]` validated wrapper around
  `String` with value equality on the raw string; map keys compare by that
  string, so branch names are modelled as `String` and the validation rule
  of `BranchName::new` is modelled separately as `branchNameValid`.
* `CommitId` is likewise a transparent `String` wrapper; the graph code
  only ever compares ids for equality.
* `Utc::now()` (the `created` timestamp of `BranchInfo`) and
  `whoami::realname()` (the author passed by `new_stack`) are external
  inputs; timestamps are modelled as a fixed abstract instant `0 : Nat`
  and the author is passed as an explicit argument.  No claim mentions
  time or the author value.
-/

/-- Lookup in an association list: the value of the first entry whose key
equals `key` (Rust `HashMap::get`, first match). -/
def alookup {α β : Type} [DecidableEq α] : List (α × β) → α → Option β
  | [], _ => none
  | (k, v) :: rest, key => if k = key then some v else alookup rest key

/-- Insert into an association list: replace the value of the first entry
with this key, or append a new entry at the end (Rust `HashMap::insert`,
with insertion-ordered iteration in the model). -/
def ainsert {α β : Type} [DecidableEq α] : List (α × β) → α → β → List (α × β)
  | [], key, val => [(key, val)]
  | (k, v) :: rest, key, val =>
    if k = key then (k, val) :: rest else (k, v) :: ainsert rest key val

/-- Append an element to the list stored under `key`, creating the entry
with a singleton list if absent.  Models the Rust pattern
`map.entry(key).or_default().push(c)`. -/
def apushChild {α β : Type} [DecidableEq α] : List (α × List β) → α → β → List (α × List β)
  | [], key, c => [(key, [c])]
  | (k, v) :: rest, key, c =>
    if k = key then (k, v ++ [c]) :: rest else (k, v) :: apushChild rest key c

-- Equality of fallible results is decidable componentwise.
deriving instance DecidableEq for Except

/-- Life-cycle state of a branch (`BranchStatus` in `branch.rs`). -/
inductive BranchStatus : Type
  | Draft
  | Open
  | Landed
  | Abandoned
deriving DecidableEq, Repr

/-- Branch metadata (`BranchInfo` in `branch.rs`).  `created`/`hosted` are
`DateTime<Utc>` in the source; time is external input and is modelled as an
abstract `Nat` instant. -/
structure BranchInfo : Type where
  name : String
  parent : Option String
  created : Nat
  hosted : Option Nat
  author : String
  status : BranchStatus
deriving DecidableEq, Repr

/-- Constructor `BranchInfo::new`: fresh branch, status `Draft`, `hosted`
empty, `created = Utc::now()` (modelled as instant `0`). -/
def BranchInfo.new (name : String) (parent : Option String) (author : String) : BranchInfo :=
  { name := name
    parent := parent
    created := 0
    hosted := none
    author := author
    status := BranchStatus.Draft }

/-- Typed error enum of the stack crate (`error.rs`).  The payloads of
`IoError`/`Serde` wrap `std::io::Error` / `serde_json::Error`, modelled as
message strings.  (`Io` is named `IoError` here for tooling reasons only.) -/
inductive StackError : Type
  | StackExists (name : String)
  | BranchExists (name : String)
  | UnknownBranch (name : String)
  | InvalidReorder (parent : String) (expected : List String) (got : List String)
  | IoError (msg : String)
  | Serde (msg : String)
deriving DecidableEq, Repr

/-- A single named stack: a tree of branches (`Stack` in `stack.rs`). -/
structure Stack : Type where
  name : String
  root : String
  branches : List (String × BranchInfo)
  children_map : List (String × List String)
deriving DecidableEq, Repr

/-- Constructor `Stack::new`: one root branch with no parent and an empty
children list. -/
def Stack.new (name : String) (root : String) (author : String) : Stack :=
  { name := name
    root := root
    branches := [(root, BranchInfo.new root none author)]
    children_map := [(root, [])] }

/-- Query `Stack::contains_branch`. -/
def Stack.contains_branch (s : Stack) (branch : String) : Bool :=
  (alookup s.branches branch).isSome

/-- Query `Stack::info`. -/
def Stack.info (s : Stack) (branch : String) : Option BranchInfo :=
  alookup s.branches branch

/-- Query `Stack::children_of`: immediate children of `branch`, the empty
list when the branch has no entry (`unwrap_or_default`). -/
def Stack.children_of (s : Stack) (branch : String) : List String :=
  (alookup s.children_map branch).getD []

/-- One step of the breadth-first walk inside `Stack::descendants`
(`std::iter::from_fn` over an explicit queue): pop the queue's front,
enqueue its children, and yield it.  `descendRun s fuel q` runs the
iterator for at most `fuel` steps from queue `q` and returns the yielded
elements together with the remaining queue (`[]` means the iterator is
exhausted, i.e. the sequence is finite).  The Rust method builds a fresh
queue `[branch]` on every call, so the produced sequence is a pure
function of the stack and the start branch — iterating twice yields the
same sequence (restartability). -/
def Stack.descendRun (s : Stack) : Nat → List String → List String × List String
  | 0, q => ([], q)
  | _ + 1, [] => ([], [])
  | n + 1, b :: qs =>
    let rec' := s.descendRun n (qs ++ (alookup s.children_map b).getD [])
    (b :: rec'.1, rec'.2)

/-- Lexicographic comparison of character lists (code-point order, which
for UTF-8 strings coincides with Rust's byte-wise `Ord` on `str`). -/
def lexLeChars : List Char → List Char → Bool
  | [], _ => true
  | _ :: _, [] => false
  | x :: xs, y :: ys => if x < y then true else if y < x then false else lexLeChars xs ys

/-- Lexicographic order on strings, the model of the `Ord` used by
`Vec::sort` on branch names. -/
def nameLe (a b : String) : Prop :=
  lexLeChars a.data b.data = true

instance nameLe.dec : DecidableRel nameLe := fun a b => by
  unfold nameLe
  infer_instance

/-- Mutation `Stack::reorder_children` (`stack.rs`): unknown parent fails
`UnknownBranch`; otherwise both the current child list and `new_order` are
sorted (`Vec::sort`, modelled by `List.insertionSort` on the lexicographic
string order) and compared; a mismatch fails
`InvalidReorder { parent, expected: sorted current, got: new_order }`
(note: `got` is the caller's list verbatim, not sorted); on equality the
child list is replaced by `new_order` verbatim. -/
def Stack.reorder_children (s : Stack) (parent : String) (new_order : List String) :
    Except StackError Stack :=
  match alookup s.children_map parent with
  | none => Except.error (StackError.UnknownBranch parent)
  | some children =>
    let current := children.insertionSort nameLe
    let proposed := new_order.insertionSort nameLe
    if current = proposed then
      Except.ok { s with children_map := ainsert s.children_map parent new_order }
    else
      Except.error (StackError.InvalidReorder parent current new_order)

/-- Top-level container `StackGraph` (`stack.rs`): all stacks, plus the
derived reverse index `branch_to_stack` which carries `#[serde(skip)]` and
is therefore never serialized. -/
structure StackGraph : Type where
  «stacks» : List (String × Stack)
  branch_to_stack : List (String × String)
deriving DecidableEq, Repr

/-- Rust `StackGraph::default()`: both maps empty. -/
def StackGraph.empty : StackGraph :=
  { «stacks» := [], branch_to_stack := [] }

/-- Private helper `StackGraph::add_child_to_stack`: unconditionally insert
(or overwrite) the child's reverse-index entry. -/
def StackGraph.add_child_to_stack (g : StackGraph) (stack_name : String) (child : String) :
    StackGraph :=
  { g with branch_to_stack := ainsert g.branch_to_stack child stack_name }

/-- Mutation `Stack::add_child` (`stack.rs`): fails `UnknownBranch` if the
parent is not in **this** stack, fails `BranchExists` if the child is
already in **this** stack (the check is `self.contains_branch(&child)` —
local to the stack, with no consultation of `graph.branch_to_stack`);
otherwise inserts the child node with `parent = Some(parent)` and status
`Draft`, appends it to `children[parent]` via `entry(..).or_default().push`,
and calls `graph.add_child_to_stack`, which overwrites any existing
reverse-index entry for the child.  Returns the updated stack and graph. -/
def Stack.add_child (s : Stack) (parent : String) (child : String)
    (author : Option String) (graph : StackGraph) : Except StackError (Stack × StackGraph) :=
  if ¬ s.contains_branch parent then
    Except.error (StackError.UnknownBranch parent)
  else if s.contains_branch child then
    Except.error (StackError.BranchExists child)
  else
    let info := BranchInfo.new child (some parent) (author.getD "unknown")
    let s' := { s with
      branches := ainsert s.branches child info
      children_map := apushChild s.children_map parent child }
    Except.ok (s', graph.add_child_to_stack s.name child)

/-- Query `StackGraph::has_stack`. -/
def StackGraph.has_stack (g : StackGraph) (name : String) : Bool :=
  (alookup g.stacks name).isSome

/-- Query `StackGraph::get_stack`. -/
def StackGraph.get_stack (g : StackGraph) (name : String) : Option Stack :=
  alookup g.stacks name

/-- Mutation `StackGraph::new_stack`: fails `StackExists` on a duplicate
stack name and `BranchExists` if the root branch is owned by **any** stack
(checked via `branch_to_stack`); on success registers the stack and indexes
the root branch.  The source passes `whoami::realname()` as the author;
the model takes it as an argument. -/
def StackGraph.new_stack (g : StackGraph) (name : String) (root_branch : String)
    (author : String) : Except StackError StackGraph :=
  if g.has_stack name then
    Except.error (StackError.StackExists name)
  else if (alookup g.branch_to_stack root_branch).isSome then
    Except.error (StackError.BranchExists root_branch)
  else
    Except.ok
      { «stacks» := ainsert g.stacks name (Stack.new name root_branch author)
        branch_to_stack := ainsert g.branch_to_stack root_branch name }

/-- Query `StackGraph::stack_for_branch`. -/
def StackGraph.stack_for_branch (g : StackGraph) (branch : String) : Option Stack :=
  match alookup g.branch_to_stack branch with
  | none => none
  | some name => alookup g.stacks name

/-- Rebuild of the derived index, `StackGraph::reindex`: clear
`branch_to_stack`, then for every stack and every key of its `branches`
map insert `branch ↦ stack name`. -/
def StackGraph.reindex (g : StackGraph) : StackGraph :=
  { g with
    branch_to_stack :=
      g.stacks.foldl
        (fun acc entry =>
          entry.2.branches.foldl (fun acc2 be => ainsert acc2 be.1 entry.1) acc)
        [] }

/-- Composition used by callers of `Stack::add_child`: fetch the target
stack with `get_stack_mut`, run `add_child` on it (threading the graph for
the reverse-index update) and store the mutated stack back.  A missing
stack is the caller's lookup failure, surfaced as `UnknownBranch` on the
stack name. -/
def StackGraph.addChildInStack (g : StackGraph) (stack_name parent child : String)
    (author : Option String) : Except StackError StackGraph :=
  match alookup g.stacks stack_name with
  | none => Except.error (StackError.UnknownBranch stack_name)
  | some s =>
    (s.add_child parent child author g).map
      (fun r => { r.2 with «stacks» := ainsert r.2.stacks stack_name r.1 })

/-- Composition used by callers of `Stack::reorder_children` on a stack
inside a graph. -/
def StackGraph.reorderInStack (g : StackGraph) (stack_name parent : String)
    (new_order : List String) : Except StackError StackGraph :=
  match alookup g.stacks stack_name with
  | none => Except.error (StackError.UnknownBranch stack_name)
  | some s =>
    (s.reorder_children parent new_order).map
      (fun s' => { g with «stacks» := ainsert g.stacks stack_name s' })

/-- State of the stacks file on disk. -/
inductive FileState : Type
  | absent
  | stores (st : List (String × Stack))
  | corrupt
  | unreadable
deriving DecidableEq

/-- File system: association of paths to file states; a path without an
entry holds no file. -/
def FS : Type := List (String × FileState)

/-- Fixed path `persist::file_path`: `<repo_root>/.git/zyra_stacks.json`. -/
def file_path (repo_root : String) : String :=
  repo_root ++ "/.git/zyra_stacks.json"

/-- Read of one file, `fs::read_to_string` composed with the serde decode
in `persist::load`:
`NotFound` yields `Ok(StackGraph::default())`, any other read error yields
`Err(StackError::Io(..))`, unparseable contents yield
`Err(StackError::Serde(..))` via the `?` on `serde_json::from_str`, and a
well-formed file deserializes to the stored stacks with an empty derived
index. -/
def persistLoad (fs : FS) (path : String) : Except StackError StackGraph :=
  match (alookup fs path).getD FileState.absent with
  | FileState.absent => Except.ok StackGraph.empty
  | FileState.stores st => Except.ok { «stacks» := st, branch_to_stack := [] }
  | FileState.corrupt => Except.error (StackError.Serde "invalid json")
  | FileState.unreadable => Except.error (StackError.IoError "read failed")

/-- Write of one file, `persist::save`: serialize the graph (only the
`stacks` component — the index is skipped) and overwrite the file, creating
parent directories as needed (directory creation has no observable effect
in this file-state model). -/
def persistSave (fs : FS) (path : String) (g : StackGraph) : FS :=
  ainsert fs path (FileState.stores g.stacks)

/-- Method `StackGraph::load_or_default`: note the source reads
`persist::load(&path).unwrap_or_default()`, so an `Err` from `load` is
replaced by `StackGraph::default()` rather than propagated; then
`reindex` runs, and the function returns `Ok` unconditionally. -/
def StackGraph.load_or_default (fs : FS) (repo_root : String) : Except StackError StackGraph :=
  let graph :=
    match persistLoad fs (file_path repo_root) with
    | Except.ok g => g
    | Except.error _ => StackGraph.empty
  Except.ok graph.reindex

/-- Method `StackGraph::save`: persist to the fixed path. -/
def StackGraph.save (g : StackGraph) (fs : FS) (repo_root : String) : FS :=
  persistSave fs (file_path repo_root) g

/-- One mutation request against a `StackGraph`. -/
inductive Op : Type
  | newStack (name root author : String)
  | addChild (stack_name parent child : String) (author : Option String)
  | reorder (stack_name parent : String) (new_order : List String)

/-- Apply one mutation, keeping the previous graph when the call fails. -/
def applyOp (g : StackGraph) (op : Op) : StackGraph :=
  match op with
  | Op.newStack name root author =>
    match g.new_stack name root author with
    | Except.ok g' => g'
    | Except.error _ => g
  | Op.addChild stack_name parent child author =>
    match g.addChildInStack stack_name parent child author with
    | Except.ok g' => g'
    | Except.error _ => g
  | Op.reorder stack_name parent new_order =>
    match g.reorderInStack stack_name parent new_order with
    | Except.ok g' => g'
    | Except.error _ => g

/-- Run a sequence of mutations from the fresh (empty) graph. -/
def runOps (ops : List Op) : StackGraph :=
  ops.foldl applyOp StackGraph.empty

/-- Character-level model of `str::starts_with` on a one-character
pattern. -/
def headIs (s : String) (c : Char) : Bool :=
  match s.data with
  | [] => false
  | x :: _ => x == c

/-- Character-level model of `str::ends_with` on a one-character
pattern. -/
def lastIs (s : String) (c : Char) : Bool :=
  (s.data.getLast?).rec false (fun x => x == c)

/-- Character-level model of `str::contains(char)`. -/
def hasChar (s : String) (c : Char) : Bool :=
  s.data.contains c

/-- Validation rule of `BranchName::new` (`core/src/model/branch.rs`): a
name is rejected when it is empty, starts or ends with `/`, contains a
space, contains one of the characters rejected by
`git check-ref-format` (tilde, caret, colon, question mark, asterisk,
opening bracket, backslash), or contains the substring `..`.  String
predicates are modelled on the underlying character list so that they
evaluate inside the kernel. -/
def branchNameValid (s : String) : Bool :=
  !(s.data.isEmpty || headIs s '/' || lastIs s '/' || hasChar s ' ' ||
    hasChar s '~' || hasChar s '^' || hasChar s ':' || hasChar s '?' ||
    hasChar s '*' || hasChar s '[' || hasChar s '\\' ||
    decide (List.IsInfix "..".data s.data))

/-- Decimal digit as a character (defined for `n < 10`). -/
def digitChar (n : Nat) : Char :=
  match n with
  | 0 => '0'
  | 1 => '1'
  | 2 => '2'
  | 3 => '3'
  | 4 => '4'
  | 5 => '5'
  | 6 => '6'
  | 7 => '7'
  | 8 => '8'
  | 9 => '9'
  | _ => '*'

/-- Fuelled decimal printer (most significant digit first); `fuel = n + 1`
always suffices since the argument shrinks by a factor of ten. -/
def natReprAux : Nat → Nat → List Char
  | 0, _ => []
  | fuel + 1, n => if n < 10 then [digitChar n] else natReprAux fuel (n / 10) ++ [digitChar (n % 10)]

/-- Decimal rendering of a natural number, the model of Rust's
`format!` on an integer counter. -/
def natRepr (n : Nat) : String :=
  { data := natReprAux (n + 1) n }

/-- Validation rule of `CommitId::new` (`core/src/model/commit_id.rs`):
length 7–40 or exactly 64, all characters ASCII hex digits. -/
def commitIdValid (s : String) : Bool :=
  ((7 ≤ s.length && s.length ≤ 40) || s.length == 64) &&
    s.data.all (fun c => c.isDigit || ('a' ≤ c && c ≤ 'f') || ('A' ≤ c && c ≤ 'F'))

/-- Typed error enum of the core crate (`core/src/error.rs`).  The `Lint`
variant wraps a `LintFailure` from the commit-message subsystem, which is
outside the graph model; its payload is modelled as its display string. -/
inductive CoreError : Type
  | Lint (msg : String)
  | InvalidOp (msg : String)
  | Graph (msg : String)
deriving DecidableEq, Repr

/-- Commit snapshot `model::Commit` (`core/src/model/commit.rs`); the
builder only ever reads `id`.  `time` is a `DateTime<Utc>` modelled as an
abstract `Nat`. -/
structure CoreCommit : Type where
  id : String
  subject : String
  author : String
  time : Nat
  body : String
deriving DecidableEq, Repr

/-- Commit with the given id and empty metadata, for concrete histories. -/
def mkCommit (id : String) : CoreCommit :=
  { id := id, subject := "", author := "", time := 0, body := "" }

/-- The core crate's lightweight DAG (`core/src/model/stack_graph.rs`):
`parents` maps a branch to its optional parent, `children` to its ordered
child list, `commits` to its tip commit id. -/
structure CoreStackGraph : Type where
  parents : List (String × Option String)
  children : List (String × List String)
  commits : List (String × String)
deriving DecidableEq, Repr

/-- Loop body of `StackGraph::from_commits` for one commit `c`, given the
graph so far and the current branch.  The fork test is
`g.commits.iter().find(|(_, tip)| *tip == &commit.id)` — a linear rescan
of the branch→tip map; in the model the map iterates in key-insertion
order.  On a fork the child is named `format!("{}/{}", parent, k)` with
`k = children[parent].len() + 1` and validated by `BranchName::new`; the
source's `g.children.get(parent_branch).unwrap()` cannot miss because
every branch receives a `children` entry when it is created.  Returns the
updated graph and the new current branch. -/
def stepCommit (g : CoreStackGraph) (current : String) (c : CoreCommit) :
    Except CoreError (CoreStackGraph × String) :=
  match g.commits.find? (fun p => p.2 == c.id) with
  | some parentTip =>
    let parentBranch := parentTip.1
    let childIdx := ((alookup g.children parentBranch).getD []).length + 1
    let childName := parentBranch ++ "/" ++ natRepr childIdx
    if branchNameValid childName then
      Except.ok
        ({ parents := ainsert g.parents childName (some parentBranch)
           children := ainsert (apushChild g.children parentBranch childName) childName []
           commits := ainsert g.commits childName c.id },
         childName)
    else
      Except.error (CoreError.Graph "invalid branch name")
  | none =>
    Except.ok ({ g with commits := ainsert g.commits current c.id }, current)

/-- Tail of the builder loop over the remaining history. -/
def fromCommitsAux (g : CoreStackGraph) (current : String) :
    List CoreCommit → Except CoreError CoreStackGraph
  | [] => Except.ok g
  | c :: rest =>
    match stepCommit g current c with
    | Except.ok r => fromCommitsAux r.1 r.2 rest
    | Except.error e => Except.error e

/-- Builder `StackGraph::from_commits`: an empty history fails
`CoreError::Graph("empty history")`; the first commit seeds a single
branch named `root` (the literal `"root"` passes `BranchName::new`), and
the remaining commits are folded through `stepCommit`. -/
def fromCommits (history : List CoreCommit) : Except CoreError CoreStackGraph :=
  match history with
  | [] => Except.error (CoreError.Graph "empty history")
  | first :: rest =>
    fromCommitsAux
      { parents := [("root", none)]
        children := [("root", [])]
        commits := [("root", first.id)] }
      "root" rest

/-- Linear scan of the branch→tip map as performed by
`g.commits.iter().find(..)`, instrumented with the number of entries
examined: the position of the first match (counting from 1), or the full
map size when no tip matches. -/
def findScanCost : List (String × String) → String → Option (String × String) × Nat
  | [], _ => (none, 0)
  | (b, tip) :: rest, i =>
    if tip = i then (some (b, tip), 1)
    else
      let r := findScanCost rest i
      (r.1, r.2 + 1)

/-- Cost-instrumented builder loop: identical graph evolution to
`fromCommitsAux`, additionally accumulating the number of tip comparisons
made by the per-commit rescans. -/
def fromCommitsCostAux (g : CoreStackGraph) (current : String) (acc : Nat) :
    List CoreCommit → Except CoreError (CoreStackGraph × Nat)
  | [] => Except.ok (g, acc)
  | c :: rest =>
    let scan := findScanCost g.commits c.id
    match scan.1 with
    | some parentTip =>
      let parentBranch := parentTip.1
      let childIdx := ((alookup g.children parentBranch).getD []).length + 1
      let childName := parentBranch ++ "/" ++ natRepr childIdx
      if branchNameValid childName then
        fromCommitsCostAux
          { parents := ainsert g.parents childName (some parentBranch)
            children := ainsert (apushChild g.children parentBranch childName) childName []
            commits := ainsert g.commits childName c.id }
          childName (acc + scan.2) rest
      else
        Except.error (CoreError.Graph "invalid branch name")
    | none =>
      fromCommitsCostAux { g with commits := ainsert g.commits current c.id }
        current (acc + scan.2) rest

/-- Builder with comparison counting. -/
def fromCommitsCost (history : List CoreCommit) : Except CoreError (CoreStackGraph × Nat) :=
  match history with
  | [] => Except.error (CoreError.Graph "empty history")
  | first :: rest =>
    fromCommitsCostAux
      { parents := [("root", none)]
        children := [("root", [])]
        commits := [("root", first.id)] }
      "root" 0 rest

/-- Navigation `StackGraph::current_tip`
(`core/src/model/stack_graph.rs`): find the first entry of the `children`
map whose child list is empty, then pair that branch with its tip from
`commits` (the `?` on `commits.get` turns a missing tip entry into
`None`).  The `children` map is a `HashMap`, whose iteration order is
unspecified; `entries` makes that order an explicit parameter, to be
instantiated with any permutation of the entry list. -/
def currentTipWith (entries : List (String × List String)) (g : CoreStackGraph) :
    Option (String × String) :=
  match entries.find? (fun p => p.2.isEmpty) with
  | none => none
  | some e =>
    match alookup g.commits e.1 with
    | none => none
    | some c => some (e.1, c)

/-- The sibling-selection logic of `StackGraph::next_of`: the element
immediately after `b` in an ordered sibling list. -/
def nextSibling (siblings : List String) (b : String) : Option String :=
  match siblings.indexOf? b with
  | none => none
  | some i => siblings.get? (i + 1)

/-- Per-branch consistency: a parentless branch is the root; a branch with
a parent has that parent present in `branches` and is listed among the
parent's children. -/
def branchOk (s : Stack) (be : String × BranchInfo) : Prop :=
  match be.2.parent with
  | none => be.1 = s.root
  | some p =>
    (∃ be2 ∈ s.branches, be2.1 = p) ∧ (∃ pe ∈ s.children_map, pe.1 = p ∧ be.1 ∈ pe.2)

instance branchOk.dec (s : Stack) (be : String × BranchInfo) : Decidable (branchOk s be) :=
  match h : be.2.parent with
  | none => decidable_of_iff (be.1 = s.root) (by simp only [branchOk, h])
  | some p =>
    decidable_of_iff
      ((∃ be2 ∈ s.branches, be2.1 = p) ∧ ∃ pe ∈ s.children_map, pe.1 = p ∧ be.1 ∈ pe.2)
      (by simp only [branchOk, h])

/-- Structural tree invariant of one stack: no duplicate keys in either
map, every listed child is a branch pointing back at its list's parent,
every branch entry is `branchOk`, and the root is a parentless branch. -/
def StackInv (s : Stack) : Prop :=
  (s.branches.map Prod.fst).Nodup ∧
  (s.children_map.map Prod.fst).Nodup ∧
  (∀ pe ∈ s.children_map, ∀ c ∈ pe.2, ∃ be ∈ s.branches, be.1 = c ∧ be.2.parent = some pe.1) ∧
  (∀ be ∈ s.branches, branchOk s be) ∧
  (∃ be ∈ s.branches, be.1 = s.root ∧ be.2.parent = none)

/-- The claim-level reading of the invariant, phrased through `children_of`
and `info`: membership in a child list is equivalent to the child's
`parent` field, parents of non-root branches resolve, and the root is the
unique parentless branch. -/
def StackSpec (s : Stack) : Prop :=
  (∀ p c, c ∈ s.children_of p ↔ ∃ i, s.info c = some i ∧ i.parent = some p) ∧
  (∀ c i p, s.info c = some i → i.parent = some p → (s.info p).isSome = true) ∧
  (∃ i, s.info s.root = some i ∧ i.parent = none) ∧
  (∀ c i, s.info c = some i → i.parent = none → c = s.root)

/-- Every stack registered in the graph satisfies the tree invariant. -/
def GraphInv (g : StackGraph) : Prop :=
  ∀ e ∈ g.stacks, StackInv e.2

instance StackInv.dec (s : Stack) : Decidable (StackInv s) := by
  unfold StackInv
  infer_instance

/-- Two stacks: `s1` rooted at branch `a`, `s2` rooted at branch `b`. -/
def gTwo : StackGraph :=
  runOps [Op.newStack "s1" "a" "me", Op.newStack "s2" "b" "me"]

/-- Fallback stack value for total projections out of `Option Stack`. -/
def dummyStack : Stack := Stack.new "x" "x" "x"

/-- One stack `s` rooted at `base` with children `a`, `b` in that order. -/
def gBase : StackGraph :=
  runOps [Op.newStack "s" "base" "me",
          Op.addChild "s" "base" "a" none,
          Op.addChild "s" "base" "b" none]

/-- The stack `s` of `gBase`. -/
def sBase : Stack := (alookup gBase.stacks "s").getD dummyStack

/-- One stack `s` with root `R`, child `A` of `R`, grandchild `B` of `A`. -/
def gRAB : StackGraph :=
  runOps [Op.newStack "s" "R" "me",
          Op.addChild "s" "R" "A" none,
          Op.addChild "s" "A" "B" none]

/-- The stack `s` of `gRAB`. -/
def sRAB : Stack := (alookup gRAB.stacks "s").getD dummyStack

/-- Fan-out graph produced by the builder from the history
`[c0, c0, c0]` (the same commit id three times): branch `root` with two
leaf children `root/1` and `root/2`, all tips `c000000`. -/
def gFan : CoreStackGraph :=
  { parents := [("root", none), ("root/1", some "root"), ("root/2", some "root")]
    children := [("root", ["root/1", "root/2"]), ("root/1", []), ("root/2", [])]
    commits := [("root", "c000000"), ("root/1", "c000000"), ("root/2", "c000000")] }

/-- A permutation of `gFan.children` that a `HashMap` iteration may
legitimately produce: the entry of leaf `root/2` first. -/
def ordFanB : List (String × List String) :=
  [("root/2", []), ("root", ["root/1", "root/2"]), ("root/1", [])]

/-- History for the C2 scenario: three distinct commits, then a fourth
commit whose id equals the second commit's id (`c2` reused). -/
def histC2 : List CoreCommit :=
  [mkCommit "aaaaaa1", mkCommit "aaaaaa2", mkCommit "aaaaaa3", mkCommit "aaaaaa2"]

/-- History on which the builder actually forks: the repeated id arrives
while it is still the current tip (`[c1, c2, c2, c3]`). -/
def histFork : List CoreCommit :=
  [mkCommit "aaaaaa1", mkCommit "aaaaaa2", mkCommit "aaaaaa2", mkCommit "aaaaaa3"]

/-- Distinct commit ids for the quadratic-cost family. -/
def pairIds : List String :=
  ["c000000", "c000001", "c000002", "c000003", "c000004", "c000005", "c000006", "c000007",
   "c000008", "c000009", "c00000a", "c00000b", "c00000c", "c00000d", "c00000e", "c00000f"]

/-- History family `histPairs k` (for `k ≤ 16`): each of the first `k` ids
appears twice in a row.  Every second occurrence forks a new branch, so
the branch count grows linearly with the history while every miss of the
per-commit rescan examines the whole branch map. -/
def histPairs (k : Nat) : List CoreCommit :=
  (pairIds.take k).foldr (fun i acc => mkCommit i :: mkCommit i :: acc) []

/-- File system holding an unreadable stacks file for the repository root
`"repo"`: reading it fails with a non-`NotFound` I/O error. -/
def fsUnreadable : FS := [(file_path "repo", FileState.unreadable)]

/-- File system holding an unparseable stacks file for `"repo"`. -/
def fsCorrupt : FS := [(file_path "repo", FileState.corrupt)]

/-- State of the builder after seeding with `c1` and extending the root
branch to tip `c2` — the point at which a repeat of `c2` forks. -/
def gPreFork : CoreStackGraph :=
  { parents := [("root", none)], children := [("root", [])],
    commits := [("root", "aaaaaa2")] }

/-! ## Lemmas and claim theorems -/

theorem alookup_ainsert_self {α β : Type} [DecidableEq α] (l : List (α × β)) (k : α) (v : β) :
    alookup (ainsert l k v) k = some v := by
  induction l with
  | nil => simp [ainsert, alookup]
  | cons hd tl ih =>
    obtain ⟨k', v'⟩ := hd
    by_cases h : k' = k
    · simp [ainsert, alookup, h]
    · simp [ainsert, alookup, h, ih]

theorem alookup_ainsert_ne {α β : Type} [DecidableEq α] (l : List (α × β)) (k k' : α) (v : β)
    (h : k ≠ k') : alookup (ainsert l k v) k' = alookup l k' := by
  induction l with
  | nil => simp [ainsert, alookup, h]
  | cons hd tl ih =>
    obtain ⟨k₀, v₀⟩ := hd
    by_cases h₀ : k₀ = k
    · subst h₀
      simp [ainsert, alookup, h]
    · simp [ainsert, alookup, h₀, ih]

theorem alookup_apushChild_self {α β : Type} [DecidableEq α]
    (l : List (α × List β)) (k : α) (c : β) :
    alookup (apushChild l k c) k = some ((alookup l k).getD [] ++ [c]) := by
  induction l with
  | nil => simp [apushChild, alookup]
  | cons hd tl ih =>
    obtain ⟨k', v'⟩ := hd
    by_cases h : k' = k
    · simp [apushChild, alookup, h]
    · simp [apushChild, alookup, h, ih]

theorem alookup_apushChild_ne {α β : Type} [DecidableEq α]
    (l : List (α × List β)) (k k' : α) (c : β) (h : k ≠ k') :
    alookup (apushChild l k c) k' = alookup l k' := by
  induction l with
  | nil => simp [apushChild, alookup, h]
  | cons hd tl ih =>
    obtain ⟨k₀, v₀⟩ := hd
    by_cases h₀ : k₀ = k
    · subst h₀
      simp [apushChild, alookup, h]
    · simp [apushChild, alookup, h₀, ih]

theorem lexLeChars_total : ∀ a b : List Char, lexLeChars a b = true ∨ lexLeChars b a = true
  | [], _ => Or.inl rfl
  | _ :: _, [] => Or.inr rfl
  | x :: xs, y :: ys => by
    by_cases hxy : x < y
    · left
      simp [lexLeChars, hxy]
    · by_cases hyx : y < x
      · right
        simp [lexLeChars, hyx]
      · rcases lexLeChars_total xs ys with h | h
        · left
          simp [lexLeChars, hxy, hyx, h]
        · right
          simp [lexLeChars, hxy, hyx, h]

theorem lexLeChars_trans : ∀ a b c : List Char,
    lexLeChars a b = true → lexLeChars b c = true → lexLeChars a c = true
  | [], _, _, _, _ => rfl
  | _ :: _, [], _, h1, _ => by simp [lexLeChars] at h1
  | _ :: _, _ :: _, [], _, h2 => by simp [lexLeChars] at h2
  | x :: xs, y :: ys, z :: zs, h1, h2 => by
    by_cases hxy : x < y
    · by_cases hyz : y < z
      · simp [lexLeChars, lt_trans hxy hyz]
      · by_cases hzy : z < y
        · simp [lexLeChars, hyz, hzy] at h2
        · have hyzeq : y = z := le_antisymm (not_lt.mp hzy) (not_lt.mp hyz)
          simp [lexLeChars, hyzeq ▸ hxy]
    · by_cases hyx : y < x
      · simp [lexLeChars, hxy, hyx] at h1
      · have hxyeq : x = y := le_antisymm (not_lt.mp hyx) (not_lt.mp hxy)
        subst hxyeq
        by_cases hyz : x < z
        · simp [lexLeChars, hyz]
        · by_cases hzy : z < x
          · simp [lexLeChars, hyz, hzy] at h2
          · simp only [lexLeChars, hxy, hyx, if_false] at h1
            simp only [lexLeChars, hyz, hzy, if_false] at h2
            simp [lexLeChars, hyz, hzy, lexLeChars_trans xs ys zs h1 h2]

theorem lexLeChars_antisymm : ∀ a b : List Char,
    lexLeChars a b = true → lexLeChars b a = true → a = b
  | [], [], _, _ => rfl
  | [], _ :: _, _, h2 => by simp [lexLeChars] at h2
  | _ :: _, [], h1, _ => by simp [lexLeChars] at h1
  | x :: xs, y :: ys, h1, h2 => by
    by_cases hxy : x < y
    · simp [lexLeChars, lt_asymm hxy, hxy] at h2
    · by_cases hyx : y < x
      · simp [lexLeChars, hxy, hyx] at h1
      · have hxyeq : x = y := le_antisymm (not_lt.mp hyx) (not_lt.mp hxy)
        subst hxyeq
        simp only [lexLeChars, hxy, hyx, if_false] at h1 h2
        rw [lexLeChars_antisymm xs ys h1 h2]

theorem alookup_eq_none_iff {α β : Type} [DecidableEq α] (l : List (α × β)) (k : α) :
    alookup l k = none ↔ k ∉ l.map Prod.fst := by
  induction l with
  | nil => simp [alookup]
  | cons hd tl ih =>
    obtain ⟨k', v'⟩ := hd
    by_cases h : k' = k
    · simp [alookup, h]
    · simp [alookup, h, ih, Ne.symm h]

theorem alookup_isSome_iff {α β : Type} [DecidableEq α] (l : List (α × β)) (k : α) :
    (alookup l k).isSome = true ↔ k ∈ l.map Prod.fst := by
  rcases h : alookup l k with _ | v
  · simp [(alookup_eq_none_iff l k).mp h]
  · simp only [Option.isSome_some, true_iff]
    by_contra hk
    rw [(alookup_eq_none_iff l k).mpr hk] at h
    exact Option.noConfusion h

theorem mem_of_alookup_eq_some {α β : Type} [DecidableEq α] {l : List (α × β)} {k : α} {v : β}
    (h : alookup l k = some v) : (k, v) ∈ l := by
  induction l with
  | nil => simp [alookup] at h
  | cons hd tl ih =>
    obtain ⟨k', v'⟩ := hd
    by_cases hk : k' = k
    · subst hk
      simp [alookup] at h
      simp [h]
    · simp only [alookup, hk, if_false] at h
      exact List.mem_cons_of_mem _ (ih h)

theorem alookup_eq_some_of_mem_nodup {α β : Type} [DecidableEq α] {l : List (α × β)} {k : α}
    {v : β} (hnd : (l.map Prod.fst).Nodup) (hm : (k, v) ∈ l) : alookup l k = some v := by
  induction l with
  | nil => simp at hm
  | cons hd tl ih =>
    obtain ⟨k', v'⟩ := hd
    simp only [List.map_cons, List.nodup_cons] at hnd
    rcases List.mem_cons.mp hm with heq | hmem
    · cases heq
      simp [alookup]
    · have hk : k' ≠ k := by
        intro hk
        subst hk
        exact hnd.1 (List.mem_map.mpr ⟨(k', v), hmem, rfl⟩)
      simp only [alookup, hk, if_false]
      exact ih hnd.2 hmem

theorem ainsert_of_not_mem {α β : Type} [DecidableEq α] {l : List (α × β)} {k : α} (v : β)
    (h : k ∉ l.map Prod.fst) : ainsert l k v = l ++ [(k, v)] := by
  induction l with
  | nil => simp [ainsert]
  | cons hd tl ih =>
    obtain ⟨k', v'⟩ := hd
    simp only [List.map_cons, List.mem_cons, not_or] at h
    simp [ainsert, Ne.symm h.1, ih h.2]

theorem apushChild_of_not_mem {α β : Type} [DecidableEq α] {l : List (α × List β)} {k : α}
    (c : β) (h : k ∉ l.map Prod.fst) : apushChild l k c = l ++ [(k, [c])] := by
  induction l with
  | nil => simp [apushChild]
  | cons hd tl ih =>
    obtain ⟨k', v'⟩ := hd
    simp only [List.map_cons, List.mem_cons, not_or] at h
    simp [apushChild, Ne.symm h.1, ih h.2]

theorem mem_ainsert {α β : Type} [DecidableEq α] {l : List (α × β)} {k : α} {v : β}
    {pe : α × β} (h : pe ∈ ainsert l k v) : pe ∈ l ∨ pe = (k, v) := by
  induction l with
  | nil => simpa [ainsert] using h
  | cons hd tl ih =>
    obtain ⟨k', v'⟩ := hd
    by_cases hk : k' = k
    · subst hk
      rcases List.mem_cons.mp (by simpa [ainsert] using h) with heq | hmem
      · right
        simpa using heq
      · exact Or.inl (List.mem_cons_of_mem _ hmem)
    · rcases List.mem_cons.mp (by simpa [ainsert, hk] using h) with heq | hmem
      · exact Or.inl (heq ▸ List.mem_cons_self _ _)
      · rcases ih hmem with h1 | h2
        · exact Or.inl (List.mem_cons_of_mem _ h1)
        · exact Or.inr h2

theorem mem_ainsert_of_mem_ne {α β : Type} [DecidableEq α] {l : List (α × β)} {k : α} (v : β)
    {pe : α × β} (h : pe ∈ l) (hne : pe.1 ≠ k) : pe ∈ ainsert l k v := by
  induction l with
  | nil => simp at h
  | cons hd tl ih =>
    obtain ⟨k', v'⟩ := hd
    rcases List.mem_cons.mp h with heq | hmem
    · subst heq
      simp only [ainsert, hne, if_false]
      exact List.mem_cons_self _ _
    · by_cases hk : k' = k
      · simp only [ainsert, hk, if_true]
        exact List.mem_cons_of_mem _ hmem
      · simp only [ainsert, hk, if_false]
        exact List.mem_cons_of_mem _ (ih hmem)

theorem mem_apushChild {α β : Type} [DecidableEq α] {l : List (α × List β)} {k : α} {c : β}
    {pe : α × List β} (h : pe ∈ apushChild l k c) :
    pe ∈ l ∨ pe = (k, (alookup l k).getD [] ++ [c]) := by
  induction l with
  | nil => simpa [apushChild, alookup] using h
  | cons hd tl ih =>
    obtain ⟨k', v'⟩ := hd
    by_cases hk : k' = k
    · subst hk
      rcases List.mem_cons.mp (by simpa [apushChild] using h) with heq | hmem
      · right
        simpa [alookup] using heq
      · exact Or.inl (List.mem_cons_of_mem _ hmem)
    · rcases List.mem_cons.mp (by simpa [apushChild, hk] using h) with heq | hmem
      · exact Or.inl (heq ▸ List.mem_cons_self _ _)
      · rcases ih hmem with h1 | h2
        · exact Or.inl (List.mem_cons_of_mem _ h1)
        · right
          simpa [alookup, hk] using h2

theorem mem_apushChild_of_mem_ne {α β : Type} [DecidableEq α] {l : List (α × List β)} {k : α}
    (c : β) {pe : α × List β} (h : pe ∈ l) (hne : pe.1 ≠ k) : pe ∈ apushChild l k c := by
  induction l with
  | nil => simp at h
  | cons hd tl ih =>
    obtain ⟨k', v'⟩ := hd
    rcases List.mem_cons.mp h with heq | hmem
    · subst heq
      simp only [apushChild, hne, if_false]
      exact List.mem_cons_self _ _
    · by_cases hk : k' = k
      · simp only [apushChild, hk, if_true]
        exact List.mem_cons_of_mem _ hmem
      · simp only [apushChild, hk, if_false]
        exact List.mem_cons_of_mem _ (ih hmem)

theorem mem_ainsert_self {α β : Type} [DecidableEq α] (l : List (α × β)) (k : α) (v : β) :
    (k, v) ∈ ainsert l k v :=
  mem_of_alookup_eq_some (alookup_ainsert_self l k v)

theorem mem_apushChild_self {α β : Type} [DecidableEq α] (l : List (α × List β)) (k : α)
    (c : β) : (k, (alookup l k).getD [] ++ [c]) ∈ apushChild l k c :=
  mem_of_alookup_eq_some (alookup_apushChild_self l k c)

theorem fst_ainsert_of_mem {α β : Type} [DecidableEq α] {l : List (α × β)} {k : α} (v : β)
    (h : k ∈ l.map Prod.fst) : (ainsert l k v).map Prod.fst = l.map Prod.fst := by
  induction l with
  | nil => simp at h
  | cons hd tl ih =>
    obtain ⟨k', v'⟩ := hd
    by_cases hk : k' = k
    · simp [ainsert, hk]
    · have h' : k ∈ k' :: tl.map Prod.fst := by simpa using h
      rcases List.mem_cons.mp h' with heq | hmem
      · exact absurd heq.symm hk
      · simp [ainsert, hk, ih hmem]

theorem fst_apushChild_of_mem {α β : Type} [DecidableEq α] {l : List (α × List β)} {k : α}
    (c : β) (h : k ∈ l.map Prod.fst) : (apushChild l k c).map Prod.fst = l.map Prod.fst := by
  induction l with
  | nil => simp at h
  | cons hd tl ih =>
    obtain ⟨k', v'⟩ := hd
    by_cases hk : k' = k
    · simp [apushChild, hk]
    · have h' : k ∈ k' :: tl.map Prod.fst := by simpa using h
      rcases List.mem_cons.mp h' with heq | hmem
      · exact absurd heq.symm hk
      · simp [apushChild, hk, ih hmem]

theorem stackInv_new (name root author : String) : StackInv (Stack.new name root author) := by
  refine ⟨by simp [Stack.new], by simp [Stack.new], ?_, ?_, ?_⟩
  · intro pe hpe c hc
    simp [Stack.new] at hpe
    subst hpe
    simp at hc
  · intro be hbe
    simp [Stack.new] at hbe
    subst hbe
    simp [branchOk, BranchInfo.new, Stack.new]
  · exact ⟨(root, BranchInfo.new root none author), by simp [Stack.new], rfl, rfl⟩

theorem add_child_ok_elim {s : Stack} {parent child : String} {author : Option String}
    {g : StackGraph} {s' : Stack} {g' : StackGraph}
    (h : s.add_child parent child author g = Except.ok (s', g')) :
    s.contains_branch parent = true ∧ s.contains_branch child = false ∧
    s' = { s with
      branches := ainsert s.branches child (BranchInfo.new child (some parent) (author.getD "unknown"))
      children_map := apushChild s.children_map parent child } ∧
    g' = g.add_child_to_stack s.name child := by
  unfold Stack.add_child at h
  by_cases h1 : s.contains_branch parent
  · by_cases h2 : s.contains_branch child
    · simp [h1, h2] at h
    · simp only [h1, h2, not_true_eq_false, if_false, Bool.false_eq_true,
        if_true, not_false_eq_true, Except.ok.injEq, Prod.mk.injEq] at h
      exact ⟨h1, by simpa using h2, h.1.symm, h.2.symm⟩
  · simp [h1] at h

theorem stackInv_add_child {s : Stack} {parent child : String} {author : Option String}
    {g : StackGraph} {s' : Stack} {g' : StackGraph}
    (hinv : StackInv s) (h : s.add_child parent child author g = Except.ok (s', g')) :
    StackInv s' := by
  obtain ⟨hnb, hnc, hcm, hbo, hroot⟩ := hinv
  obtain ⟨hp, hc, hs', -⟩ := add_child_ok_elim h
  have hcnone : alookup s.branches child = none := by
    rcases hx : alookup s.branches child with _ | v
    · rfl
    · exfalso
      have hct : s.contains_branch child = true := by
        unfold Stack.contains_branch
        rw [hx]
        rfl
      rw [hct] at hc
      exact Bool.noConfusion hc
  have hcnm : child ∉ s.branches.map Prod.fst := (alookup_eq_none_iff _ _).mp hcnone
  have hbr' : s'.branches = s.branches ++
      [(child, BranchInfo.new child (some parent) (author.getD "unknown"))] := by
    rw [hs']
    exact ainsert_of_not_mem _ hcnm
  have hcm' : s'.children_map = apushChild s.children_map parent child := by rw [hs']
  have hroot' : s'.root = s.root := by rw [hs']
  have hpmem : ∃ infoP, (parent, infoP) ∈ s.branches := by
    rcases hx : alookup s.branches parent with _ | v
    · exfalso
      have hpf : s.contains_branch parent = false := by
        unfold Stack.contains_branch
        rw [hx]
        rfl
      rw [hpf] at hp
      exact Bool.noConfusion hp
    · exact ⟨v, mem_of_alookup_eq_some hx⟩
  refine ⟨?_, ?_, ?_, ?_, ?_⟩
  · rw [hbr']
    simp only [List.map_append, List.map_cons, List.map_nil]
    rw [List.nodup_append]
    exact ⟨hnb, List.nodup_singleton _, by simpa using fun hx => hcnm hx⟩
  · rw [hcm']
    by_cases hpm : parent ∈ s.children_map.map Prod.fst
    · rw [fst_apushChild_of_mem _ hpm]
      exact hnc
    · rw [apushChild_of_not_mem _ hpm]
      simp only [List.map_append, List.map_cons, List.map_nil]
      rw [List.nodup_append]
      exact ⟨hnc, List.nodup_singleton _, by simpa using fun hx => hpm hx⟩
  · rw [hcm', hbr']
    intro pe hpe c hcc
    rcases mem_apushChild hpe with hold | hnew
    · obtain ⟨be, hbem, hbe1, hbe2⟩ := hcm pe hold c hcc
      exact ⟨be, List.mem_append_left _ hbem, hbe1, hbe2⟩
    · subst hnew
      simp only at hcc
      rcases List.mem_append.mp hcc with holdc | hcc2
    
      · rcases hx : alookup s.children_map parent with _ | ch
        · rw [hx] at holdc
          simp at holdc
        · rw [hx] at holdc
          obtain ⟨be, hbem, hbe1, hbe2⟩ := hcm (parent, ch) (mem_of_alookup_eq_some hx) c holdc
          exact ⟨be, List.mem_append_left _ hbem, hbe1, hbe2⟩
      · have hcchild : c = child := by simpa using hcc2
        exact ⟨(child, BranchInfo.new child (some parent) (author.getD "unknown")),
          List.mem_append_right _ (by simp), hcchild.symm, rfl⟩
  · intro be hbe
    rw [hbr'] at hbe
    rcases List.mem_append.mp hbe with hold | hnew
    · have hbold := hbo be hold
      unfold branchOk at hbold ⊢
      rcases hpar : be.2.parent with _ | p
      · rw [hpar] at hbold
        simpa [hroot'] using hbold
      · rw [hpar] at hbold
        obtain ⟨⟨be2, hbe2m, hbe2e⟩, ⟨pe, hpem, hpe1, hpe2⟩⟩ := hbold
        refine ⟨⟨be2, by rw [hbr']; exact List.mem_append_left _ hbe2m, hbe2e⟩, ?_⟩
        rw [hcm']
        by_cases hpp : pe.1 = parent
        · have hpl : alookup s.children_map parent = some pe.2 := by
            rw [← hpp]
            exact alookup_eq_some_of_mem_nodup hnc (by simpa using hpem)
          exact ⟨(parent, pe.2 ++ [child]),
            by simpa [hpl] using mem_apushChild_self s.children_map parent child,
            by rw [← hpp, hpe1], List.mem_append_left _ hpe2⟩
        · exact ⟨pe, mem_apushChild_of_mem_ne _ hpem hpp, hpe1, hpe2⟩
    · have hbenew : be = (child, BranchInfo.new child (some parent) (author.getD "unknown")) := by
        simpa using hnew
      subst hbenew
      unfold branchOk
      simp only [BranchInfo.new]
      obtain ⟨infoP, hinfoP⟩ := hpmem
      refine ⟨⟨(parent, infoP), ?_, rfl⟩, ?_⟩
      · rw [hbr']
        exact List.mem_append_left _ hinfoP
      · rw [hcm']
        exact ⟨(parent, (alookup s.children_map parent).getD [] ++ [child]),
          mem_apushChild_self s.children_map parent child, rfl, by simp⟩
  · obtain ⟨be, hbem, hbe1, hbe2⟩ := hroot
    exact ⟨be, by rw [hbr']; exact List.mem_append_left _ hbem, by rw [hroot']; exact hbe1, hbe2⟩

theorem insertionSort_eq_iff_perm (l₁ l₂ : List String) :
    l₁.insertionSort nameLe = l₂.insertionSort nameLe ↔ l₁.Perm l₂ := by
  haveI : IsTotal String nameLe := ⟨fun a b => lexLeChars_total a.data b.data⟩
  haveI : IsTrans String nameLe := ⟨fun a b c h1 h2 => lexLeChars_trans a.data b.data c.data h1 h2⟩
  haveI : IsAntisymm String nameLe := ⟨fun a b h1 h2 => by
    cases a
    cases b
    exact congrArg String.mk (lexLeChars_antisymm _ _ h1 h2)⟩
  constructor
  · intro h
    have h1 := List.perm_insertionSort nameLe l₁
    have h2 := List.perm_insertionSort nameLe l₂
    rw [h] at h1
    exact h1.symm.trans h2
  · intro h
    refine List.eq_of_perm_of_sorted ?_ (List.sorted_insertionSort _ _)
      (List.sorted_insertionSort _ _)
    have h1 := List.perm_insertionSort nameLe l₁
    have h2 := List.perm_insertionSort nameLe l₂
    exact h1.trans (h.trans h2.symm)

theorem reorder_ok_elim {s : Stack} {parent : String} {new_order : List String} {s' : Stack}
    (h : s.reorder_children parent new_order = Except.ok s') :
    ∃ children, alookup s.children_map parent = some children ∧
      children.insertionSort nameLe = new_order.insertionSort nameLe ∧
      s' = { s with children_map := ainsert s.children_map parent new_order } := by
  unfold Stack.reorder_children at h
  rcases hx : alookup s.children_map parent with _ | children
  · rw [hx] at h
    exact absurd h (by simp)
  · rw [hx] at h
    by_cases hsort : children.insertionSort nameLe = new_order.insertionSort nameLe
    · simp only [hsort, if_true, Except.ok.injEq] at h
      exact ⟨children, rfl, hsort, h.symm⟩
    · simp only [hsort, if_false, reduceCtorEq] at h

theorem stackInv_reorder {s : Stack} {parent : String} {new_order : List String} {s' : Stack}
    (hinv : StackInv s) (h : s.reorder_children parent new_order = Except.ok s') :
    StackInv s' := by
  obtain ⟨hnb, hnc, hcm, hbo, hroot⟩ := hinv
  obtain ⟨children, hx, hsort, hs'⟩ := reorder_ok_elim h
  have hperm : children.Perm new_order := (insertionSort_eq_iff_perm _ _).mp hsort
  have hpm : parent ∈ s.children_map.map Prod.fst := by
    rw [← alookup_isSome_iff, hx]
    rfl
  have hbr' : s'.branches = s.branches := by rw [hs']
  have hcm' : s'.children_map = ainsert s.children_map parent new_order := by rw [hs']
  have hroot' : s'.root = s.root := by rw [hs']
  refine ⟨by rw [hbr']; exact hnb, ?_, ?_, ?_, ?_⟩
  · rw [hcm', fst_ainsert_of_mem _ hpm]
    exact hnc
  · rw [hcm', hbr']
    intro pe hpe c hcc
    rcases mem_ainsert hpe with hold | hnew
    · exact hcm pe hold c hcc
    · subst hnew
      simp only at hcc
      exact hcm (parent, children) (mem_of_alookup_eq_some hx) c (hperm.symm.mem_iff.mp hcc)
  · rw [hbr']
    intro be hbe
    have hbold := hbo be hbe
    unfold branchOk at hbold ⊢
    rcases hpar : be.2.parent with _ | p
    · rw [hpar] at hbold
      simpa [hroot'] using hbold
    · rw [hpar] at hbold
      obtain ⟨⟨be2, hbe2m, hbe2e⟩, ⟨pe, hpem, hpe1, hpe2⟩⟩ := hbold
      refine ⟨⟨be2, by rw [hbr']; exact hbe2m, hbe2e⟩, ?_⟩
      rw [hcm']
      by_cases hpp : pe.1 = parent
      · have hplook : alookup s.children_map parent = some pe.2 := by
          rw [← hpp]
          exact alookup_eq_some_of_mem_nodup hnc (by simpa using hpem)
        have hpe2eq : pe.2 = children := Option.some_injective _ (hplook.symm.trans hx)
        refine ⟨(parent, new_order), mem_ainsert_self _ _ _, by rw [← hpp, hpe1], ?_⟩
        rw [hpe2eq] at hpe2
        exact hperm.mem_iff.mp hpe2
      · exact ⟨pe, mem_ainsert_of_mem_ne _ hpem hpp, hpe1, hpe2⟩
  · obtain ⟨be, hbem, hbe1, hbe2⟩ := hroot
    exact ⟨be, by rw [hbr']; exact hbem, by rw [hroot']; exact hbe1, hbe2⟩

theorem new_stack_ok_elim {g : StackGraph} {name root_branch author : String} {g' : StackGraph}
    (h : g.new_stack name root_branch author = Except.ok g') :
    g'.stacks = ainsert g.stacks name (Stack.new name root_branch author) := by
  unfold StackGraph.new_stack at h
  by_cases h1 : g.has_stack name
  · simp [h1] at h
  · by_cases h2 : (alookup g.branch_to_stack root_branch).isSome
    · simp [h1, h2] at h
    · simp only [h1, h2, Bool.false_eq_true, if_false, Except.ok.injEq] at h
      rw [← h]

theorem addChildInStack_ok_elim {g : StackGraph} {stack_name parent child : String}
    {author : Option String} {g' : StackGraph}
    (h : g.addChildInStack stack_name parent child author = Except.ok g') :
    ∃ s s', alookup g.stacks stack_name = some s ∧
      s.add_child parent child author g = Except.ok (s', g.add_child_to_stack s.name child) ∧
      g'.stacks = ainsert g.stacks stack_name s' := by
  unfold StackGraph.addChildInStack at h
  rcases hx : alookup g.stacks stack_name with _ | s
  · rw [hx] at h
    exact absurd h (by simp)
  · rw [hx] at h
    dsimp only at h
    rcases hy : s.add_child parent child author g with e | r
    · rw [hy] at h
      exact absurd h (by simp [Except.map])
    · rw [hy] at h
      obtain ⟨-, -, -, hg⟩ := add_child_ok_elim hy
      simp only [Except.map, Except.ok.injEq] at h
      refine ⟨s, r.1, rfl, ?_, ?_⟩
      · rw [hy]
        exact congrArg Except.ok (Prod.ext rfl hg)
      · rw [← h]
        simp only [hg, StackGraph.add_child_to_stack]

theorem reorderInStack_ok_elim {g : StackGraph} {stack_name parent : String}
    {new_order : List String} {g' : StackGraph}
    (h : g.reorderInStack stack_name parent new_order = Except.ok g') :
    ∃ s s', alookup g.stacks stack_name = some s ∧
      s.reorder_children parent new_order = Except.ok s' ∧
      g'.stacks = ainsert g.stacks stack_name s' := by
  unfold StackGraph.reorderInStack at h
  rcases hx : alookup g.stacks stack_name with _ | s
  · rw [hx] at h
    exact absurd h (by simp)
  · rw [hx] at h
    dsimp only at h
    rcases hy : s.reorder_children parent new_order with e | s'
    · rw [hy] at h
      exact absurd h (by simp [Except.map])
    · rw [hy] at h
      simp only [Except.map, Except.ok.injEq] at h
      exact ⟨s, s', rfl, hy, by rw [← h]⟩

theorem graphInv_applyOp {g : StackGraph} (op : Op) (h : GraphInv g) :
    GraphInv (applyOp g op) := by
  cases op with
  | newStack name root author =>
    simp only [applyOp]
    rcases hx : g.new_stack name root author with e | g'
    · exact h
    · have hst := new_stack_ok_elim hx
      intro e he
      rw [hst] at he
      rcases mem_ainsert he with hold | hnew
      · exact h e hold
      · rw [hnew]
        exact stackInv_new name root author
  | addChild stack_name parent child author =>
    simp only [applyOp]
    rcases hx : g.addChildInStack stack_name parent child author with e | g'
    · exact h
    · obtain ⟨s, s', hlook, hadd, hst⟩ := addChildInStack_ok_elim hx
      intro e he
      rw [hst] at he
      rcases mem_ainsert he with hold | hnew
      · exact h e hold
      · rw [hnew]
        exact stackInv_add_child (h (stack_name, s) (mem_of_alookup_eq_some hlook)) hadd
  | reorder stack_name parent new_order =>
    simp only [applyOp]
    rcases hx : g.reorderInStack stack_name parent new_order with e | g'
    · exact h
    · obtain ⟨s, s', hlook, hre, hst⟩ := reorderInStack_ok_elim hx
      intro e he
      rw [hst] at he
      rcases mem_ainsert he with hold | hnew
      · exact h e hold
      · rw [hnew]
        exact stackInv_reorder (h (stack_name, s) (mem_of_alookup_eq_some hlook)) hre

theorem graphInv_foldl (ops : List Op) :
    ∀ g : StackGraph, GraphInv g → GraphInv (ops.foldl applyOp g) := by
  induction ops with
  | nil => exact fun g h => h
  | cons op rest ih => exact fun g h => ih (applyOp g op) (graphInv_applyOp op h)

theorem graphInv_runOps (ops : List Op) : GraphInv (runOps ops) :=
  graphInv_foldl ops StackGraph.empty (by intro e he; simp [StackGraph.empty] at he)

theorem stackSpec_of_inv {s : Stack} (hinv : StackInv s) : StackSpec s := by
  obtain ⟨hnb, hnc, hcm, hbo, hroot⟩ := hinv
  refine ⟨?_, ?_, ?_, ?_⟩
  · intro p c
    constructor
    · intro hc
      unfold Stack.children_of at hc
      rcases hx : alookup s.children_map p with _ | l
      · rw [hx] at hc
        simp at hc
      · rw [hx] at hc
        obtain ⟨be, hbem, hbe1, hbe2⟩ := hcm (p, l) (mem_of_alookup_eq_some hx) c hc
        refine ⟨be.2, ?_, hbe2⟩
        unfold Stack.info
        rw [← hbe1]
        exact alookup_eq_some_of_mem_nodup hnb (by simpa using hbem)
    · intro ⟨i, hi, hip⟩
      have hbm : (c, i) ∈ s.branches := mem_of_alookup_eq_some hi
      have hbo2 := hbo (c, i) hbm
      unfold branchOk at hbo2
      rw [hip] at hbo2
      obtain ⟨-, ⟨pe, hpem, hpe1, hpe2⟩⟩ := hbo2
      unfold Stack.children_of
      have : alookup s.children_map p = some pe.2 := by
        rw [← hpe1]
        exact alookup_eq_some_of_mem_nodup hnc (by simpa using hpem)
      rw [this]
      exact hpe2
  · intro c i p hi hip
    have hbm : (c, i) ∈ s.branches := mem_of_alookup_eq_some hi
    have hbo2 := hbo (c, i) hbm
    unfold branchOk at hbo2
    rw [hip] at hbo2
    obtain ⟨⟨be2, hbe2m, hbe2e⟩, -⟩ := hbo2
    unfold Stack.info
    rw [← hbe2e]
    rw [alookup_eq_some_of_mem_nodup hnb (by simpa using hbe2m)]
    rfl
  · obtain ⟨be, hbem, hbe1, hbe2⟩ := hroot
    refine ⟨be.2, ?_, hbe2⟩
    unfold Stack.info
    rw [← hbe1]
    exact alookup_eq_some_of_mem_nodup hnb (by simpa using hbem)
  · intro c i hi hip
    have hbm : (c, i) ∈ s.branches := mem_of_alookup_eq_some hi
    have hbo2 := hbo (c, i) hbm
    unfold branchOk at hbo2
    rw [hip] at hbo2
    exact hbo2

theorem descendRun_nil (s : Stack) : ∀ n, s.descendRun n [] = ([], []) := by
  intro n
  cases n with
  | zero => rfl
  | succ m => rfl

theorem descendRun_stable (s : Stack) :
    ∀ n m q out, s.descendRun n q = (out, []) → n ≤ m → s.descendRun m q = (out, []) := by
  intro n
  induction n with
  | zero =>
    intro m q out h hle
    unfold Stack.descendRun at h
    obtain ⟨h1, h2⟩ := Prod.mk.injEq .. ▸ h
    rw [← h1, h2]
    exact descendRun_nil s m
  | succ k ih =>
    intro m q out h hle
    rcases q with _ | ⟨b, qs⟩
    · have hout : out = [] := by
        simpa [Stack.descendRun] using congrArg Prod.fst h.symm
      rw [hout]
      exact descendRun_nil s m
    · obtain ⟨m', rfl⟩ : ∃ m', m = m' + 1 := ⟨m - 1, by omega⟩
      have hrec := congrArg Prod.fst h
      have hrec2 := congrArg Prod.snd h
      simp only [Stack.descendRun] at hrec hrec2
      rcases hstep : s.descendRun k (qs ++ (alookup s.children_map b).getD []) with ⟨o1, r1⟩
      rw [hstep] at hrec hrec2
      simp only at hrec hrec2
      have := ih m' (qs ++ (alookup s.children_map b).getD []) o1 (by rw [hstep, hrec2])
        (by omega)
      simp only [Stack.descendRun, this]
      rw [← hrec]

theorem string_ne_append_slash (parent : String) (tail : String) :
    parent ≠ parent ++ "/" ++ tail := by
  intro h
  have hd := congrArg String.data h
  simp [String.instAppend, String.append] at hd

theorem findScanCost_fst (l : List (String × String)) (i : String) :
    (findScanCost l i).1 = l.find? (fun p => p.2 == i) := by
  induction l with
  | nil => rfl
  | cons hd tl ih =>
    obtain ⟨b, tip⟩ := hd
    by_cases h : tip = i
    · simp [findScanCost, List.find?, h]
    · simp only [findScanCost, h, if_false, List.find?]
      rw [show ((b, tip).2 == i) = false by simpa using h]
      exact ih

theorem fromCommitsCostAux_fst (history : List CoreCommit) :
    ∀ g current acc,
      (fromCommitsCostAux g current acc history).map Prod.fst =
        fromCommitsAux g current history := by
  induction history with
  | nil => intro g current acc; rfl
  | cons c rest ih =>
    intro g current acc
    simp only [fromCommitsCostAux, fromCommitsAux, stepCommit, ← findScanCost_fst]
    rcases hf : (findScanCost g.commits c.id).1 with _ | pt
    · exact ih _ _ _
    · by_cases hv : branchNameValid (pt.1 ++ "/" ++ natRepr (((alookup g.children pt.1).getD []).length + 1)) = true
      · simp only [hv, if_true]
        exact ih _ _ _
      · simp only [hv, if_false]
        rfl

theorem fromCommitsCost_fst (history : List CoreCommit) :
    (fromCommitsCost history).map Prod.fst = fromCommits history := by
  cases history with
  | nil => rfl
  | cons first rest => exact fromCommitsCostAux_fst rest _ _ _

theorem add_child_ok_intro (s : Stack) (parent child : String) (author : Option String)
    (g : StackGraph) (hp : s.contains_branch parent = true)
    (hc : s.contains_branch child = false) :
    s.add_child parent child author g = Except.ok
      ({ s with
          branches := ainsert s.branches child
            (BranchInfo.new child (some parent) (author.getD "unknown"))
          children_map := apushChild s.children_map parent child },
        g.add_child_to_stack s.name child) := by
  unfold Stack.add_child
  simp [hp, hc]

theorem add_child_err_parent (s : Stack) (parent child : String) (author : Option String)
    (g : StackGraph) (hp : s.contains_branch parent = false) :
    s.add_child parent child author g = Except.error (StackError.UnknownBranch parent) := by
  unfold Stack.add_child
  simp [hp]

theorem add_child_err_child (s : Stack) (parent child : String) (author : Option String)
    (g : StackGraph) (hp : s.contains_branch parent = true)
    (hc : s.contains_branch child = true) :
    s.add_child parent child author g = Except.error (StackError.BranchExists child) := by
  unfold Stack.add_child
  simp [hp, hc]

/-- **C4** (confirmed).  Persistence round trip: for every graph `g`, every
prior file-system state and every repository root, `save` followed by
`load_or_default` returns a graph whose `stacks` component (stack names,
roots, branches maps, ordered children lists) equals that of `g`, and
whose derived `branch_to_stack` index is exactly the one rebuilt by
`reindex` from the deserialized stacks — the index itself is never stored
by `save`. -/
theorem save_load_round_trip (g : StackGraph) (fs : FS) (repo_root : String) :
    StackGraph.load_or_default (g.save fs repo_root) repo_root =
      Except.ok (StackGraph.reindex { «stacks» := g.stacks, branch_to_stack := [] }) ∧
    (StackGraph.reindex { «stacks» := g.stacks, branch_to_stack := [] }).stacks = g.stacks := by
  constructor
  · unfold StackGraph.load_or_default StackGraph.save persistSave persistLoad
    rw [alookup_ainsert_self]
    rfl
  · rfl

/-- **C6** (corrected), counterexample.  A stacks file that exists but
cannot be read makes the inner `persist::load` fail with a typed
`Io` error, yet `load_or_default` returns `Ok` with the empty default
graph instead of propagating it (`unwrap_or_default`); likewise for a
file whose contents fail to deserialize (`Serde`).  This also refutes
"empty exactly when the file is absent": the file is present here. -/
theorem load_or_default_swallows_errors :
    alookup fsUnreadable (file_path "repo") = some FileState.unreadable ∧
    persistLoad fsUnreadable (file_path "repo") =
      Except.error (StackError.IoError "read failed") ∧
    StackGraph.load_or_default fsUnreadable "repo" = Except.ok StackGraph.empty ∧
    persistLoad fsCorrupt (file_path "repo") = Except.error (StackError.Serde "invalid json") ∧
    StackGraph.load_or_default fsCorrupt "repo" = Except.ok StackGraph.empty := by
  exact ⟨rfl, rfl, rfl, rfl, rfl⟩

/-- **C6** (corrected), amended claim.  `load_or_default` returns the
empty graph when the stacks file is absent; when the file is unreadable
or unparseable the inner `load` produces the typed `Io`/`Serde` error,
but `load_or_default` swallows it via `unwrap_or_default` and still
returns the empty graph; it returns `Ok` unconditionally. -/
theorem load_or_default_amended (fs : FS) (repo_root : String) :
    ((alookup fs (file_path repo_root)).getD FileState.absent = FileState.absent →
      StackGraph.load_or_default fs repo_root = Except.ok StackGraph.empty) ∧
    ((alookup fs (file_path repo_root)).getD FileState.absent = FileState.unreadable →
      persistLoad fs (file_path repo_root) = Except.error (StackError.IoError "read failed") ∧
      StackGraph.load_or_default fs repo_root = Except.ok StackGraph.empty) ∧
    ((alookup fs (file_path repo_root)).getD FileState.absent = FileState.corrupt →
      persistLoad fs (file_path repo_root) = Except.error (StackError.Serde "invalid json") ∧
      StackGraph.load_or_default fs repo_root = Except.ok StackGraph.empty) ∧
    (StackGraph.load_or_default fs repo_root).isOk = true := by
  have habs : (alookup fs (file_path repo_root)).getD FileState.absent = FileState.absent →
      StackGraph.load_or_default fs repo_root = Except.ok StackGraph.empty := by
    intro h
    unfold StackGraph.load_or_default persistLoad
    rw [h]
    rfl
  have hunr : (alookup fs (file_path repo_root)).getD FileState.absent =
      FileState.unreadable →
      persistLoad fs (file_path repo_root) = Except.error (StackError.IoError "read failed") ∧
      StackGraph.load_or_default fs repo_root = Except.ok StackGraph.empty := by
    intro h
    constructor
    · unfold persistLoad
      rw [h]
    · unfold StackGraph.load_or_default persistLoad
      rw [h]
      rfl
  have hcor : (alookup fs (file_path repo_root)).getD FileState.absent = FileState.corrupt →
      persistLoad fs (file_path repo_root) = Except.error (StackError.Serde "invalid json") ∧
      StackGraph.load_or_default fs repo_root = Except.ok StackGraph.empty := by
    intro h
    constructor
    · unfold persistLoad
      rw [h]
    · unfold StackGraph.load_or_default persistLoad
      rw [h]
      rfl
  have hok : (StackGraph.load_or_default fs repo_root).isOk = true := by
    unfold StackGraph.load_or_default persistLoad
    cases hval : (alookup fs (file_path repo_root)).getD FileState.absent <;> rfl
  exact ⟨habs, hunr, hcor, hok⟩

/-- **C6** witness: the amended claim applied to the unreadable-file
system. -/
theorem load_or_default_amended_witness :
    persistLoad fsUnreadable (file_path "repo") =
      Except.error (StackError.IoError "read failed") ∧
    StackGraph.load_or_default fsUnreadable "repo" = Except.ok StackGraph.empty :=
  (load_or_default_amended fsUnreadable "repo").2.1 (by decide)

/-- **C1** (corrected), counterexample.  In the graph `gTwo` (stack `s1`
rooted at `a`, stack `s2` rooted at `b`), calling `add_child` on `s1`
with child `b` — a name owned by the *other* stack — does **not** fail
with `BranchExists`: it succeeds, inserts `b` into `s1` (so `b` is now a
branch of both stacks) and silently overwrites the `branch_to_stack`
entry of `b` from `s2` to `s1`. -/
theorem add_child_cross_stack_counterexample :
    alookup gTwo.branch_to_stack "b" = some "s2" ∧
    ((alookup gTwo.stacks "s2").getD dummyStack).contains_branch "b" = true ∧
    (gTwo.addChildInStack "s1" "a" "b" (some "me")).isOk = true ∧
    (gTwo.addChildInStack "s1" "a" "b" (some "me")).map
      (fun g => (alookup g.branch_to_stack "b",
        ((alookup g.stacks "s1").getD dummyStack).contains_branch "b",
        ((alookup g.stacks "s2").getD dummyStack).contains_branch "b")) =
      Except.ok (some "s1", true, true) := by
  exact ⟨rfl, rfl, rfl, rfl⟩

/-- **C1** (corrected), amended claim.  The uniqueness check of
`Stack::add_child` is **local** to the target stack: a child name absent
from the target stack is accepted even when `branch_to_stack` records it
as owned by a different stack, and the child's reverse-index entry is
overwritten to the target stack's name; only a child already present in
the *same* stack fails with `BranchExists`, and a parent absent from the
stack fails with `UnknownBranch` (both leaving the graph unchanged, as
the error is returned before any mutation). -/
theorem add_child_local_check_amended :
    (∀ (g : StackGraph) (name parent child : String) (s : Stack) (author : Option String),
      alookup g.stacks name = some s →
      s.contains_branch parent = true →
      s.contains_branch child = false →
      ∃ g', g.addChildInStack name parent child author = Except.ok g' ∧
        alookup g'.branch_to_stack child = some s.name ∧
        (alookup g'.stacks name).map (fun s' => s'.contains_branch child) = some true) ∧
    (∀ (g : StackGraph) (name parent child : String) (s : Stack) (author : Option String),
      alookup g.stacks name = some s →
      s.contains_branch parent = true →
      s.contains_branch child = true →
      g.addChildInStack name parent child author =
        Except.error (StackError.BranchExists child)) ∧
    (∀ (g : StackGraph) (name parent child : String) (s : Stack) (author : Option String),
      alookup g.stacks name = some s →
      s.contains_branch parent = false →
      g.addChildInStack name parent child author =
        Except.error (StackError.UnknownBranch parent)) := by
  refine ⟨?_, ?_, ?_⟩
  · intro g name parent child s author hlook hp hc
    unfold StackGraph.addChildInStack
    rw [hlook]
    dsimp only
    rw [add_child_ok_intro s parent child author g hp hc]
    refine ⟨_, rfl, ?_, ?_⟩
    · exact alookup_ainsert_self _ _ _
    · rw [alookup_ainsert_self]
      simp [Stack.contains_branch, alookup_ainsert_self]
  · intro g name parent child s author hlook hp hc
    unfold StackGraph.addChildInStack
    rw [hlook]
    dsimp only
    rw [add_child_err_child s parent child author g hp hc]
    rfl
  · intro g name parent child s author hlook hp
    unfold StackGraph.addChildInStack
    rw [hlook]
    dsimp only
    rw [add_child_err_parent s parent child author g hp]
    rfl

/-- **C1** witness: the amended claim applied to `gTwo` — the cross-stack
insertion succeeds and overwrites the index entry, and a same-stack
duplicate (root `b` of `s2`) is rejected with `BranchExists`. -/
theorem add_child_local_check_amended_witness :
    (∃ g', gTwo.addChildInStack "s1" "a" "b" (some "me") = Except.ok g' ∧
      alookup g'.branch_to_stack "b" = some "s1" ∧
      (alookup g'.stacks "s1").map (fun s' => s'.contains_branch "b") = some true) ∧
    gTwo.addChildInStack "s2" "b" "b" none =
      Except.error (StackError.BranchExists "b") :=
  ⟨add_child_local_check_amended.1 gTwo "s1" "a" "b" (Stack.new "s1" "a" "me") (some "me")
      (by decide) (by decide) (by decide),
    add_child_local_check_amended.2.1 gTwo "s2" "b" "b" (Stack.new "s2" "b" "me") none
      (by decide) (by decide) (by decide)⟩

/-- **C3** (corrected), counterexample.  On the stack with
`children["base"] = ["a", "b"]`, the failing call
`reorder_children("base", ["c", "a"])` returns
`InvalidReorder { expected := ["a", "b"], got := ["c", "a"] }`: the `got`
field is the caller's `new_order` verbatim, **not** `sorted(new_order) =
["a", "c"]` as the claim states. -/
theorem reorder_got_unsorted_counterexample :
    sBase.children_of "base" = ["a", "b"] ∧
    sBase.reorder_children "base" ["c", "a"] =
      Except.error (StackError.InvalidReorder "base" ["a", "b"] ["c", "a"]) ∧
    List.insertionSort nameLe ["c", "a"] = ["a", "c"] ∧
    sBase.reorder_children "base" ["c", "a"] ≠
      Except.error (StackError.InvalidReorder "base" ["a", "b"] ["a", "c"]) := by
  exact ⟨rfl, rfl, rfl, by decide⟩

/-- **C3** (corrected), amended claim.  `reorder_children(parent,
new_order)` succeeds iff `parent` is present and `sorted(new_order)`
equals `sorted(children[parent])` (equivalently, the two lists are
permutations); on success `children[parent]` becomes `new_order`
verbatim, so sibling order reflects the caller's order; on a set
mismatch it fails with `InvalidReorder` carrying
`expected = sorted(current children)` and `got = new_order` **verbatim**
(not sorted); an absent parent fails with `UnknownBranch`. -/
theorem reorder_children_amended :
    (∀ (s : Stack) (parent : String) (new_order : List String),
      alookup s.children_map parent = none →
      s.reorder_children parent new_order =
        Except.error (StackError.UnknownBranch parent)) ∧
    (∀ (s : Stack) (parent : String) (new_order children : List String),
      alookup s.children_map parent = some children →
      ((s.reorder_children parent new_order).isOk = true ↔ children.Perm new_order) ∧
      (children.insertionSort nameLe = new_order.insertionSort nameLe →
        ∃ s', s.reorder_children parent new_order = Except.ok s' ∧
          s'.children_of parent = new_order ∧
          s' = { s with children_map := ainsert s.children_map parent new_order }) ∧
      (children.insertionSort nameLe ≠ new_order.insertionSort nameLe →
        s.reorder_children parent new_order =
          Except.error
            (StackError.InvalidReorder parent (children.insertionSort nameLe) new_order))) := by
  constructor
  · intro s parent new_order hnone
    unfold Stack.reorder_children
    rw [hnone]
  · intro s parent new_order children hsome
    have hok : children.insertionSort nameLe = new_order.insertionSort nameLe →
        s.reorder_children parent new_order =
          Except.ok { s with children_map := ainsert s.children_map parent new_order } := by
      intro hsort
      unfold Stack.reorder_children
      rw [hsome]
      simp only [hsort, if_true]
    have herr : children.insertionSort nameLe ≠ new_order.insertionSort nameLe →
        s.reorder_children parent new_order =
          Except.error
            (StackError.InvalidReorder parent (children.insertionSort nameLe) new_order) := by
      intro hsort
      unfold Stack.reorder_children
      rw [hsome]
      simp only [hsort, if_false]
    refine ⟨?_, ?_, herr⟩
    · constructor
      · intro hisok
        by_cases hsort : children.insertionSort nameLe = new_order.insertionSort nameLe
        · exact (insertionSort_eq_iff_perm children new_order).mp hsort
        · rw [herr hsort] at hisok
          cases hisok
      · intro hperm
        rw [hok ((insertionSort_eq_iff_perm children new_order).mpr hperm)]
        rfl
    · intro hsort
      refine ⟨_, hok hsort, ?_, rfl⟩
      unfold Stack.children_of
      rw [alookup_ainsert_self]
      rfl

/-- **C3** witness: the amended claim applied to `sBase`
(`children["base"] = ["a", "b"]`): the permutation `["b", "a"]` is
accepted, the child list becomes `["b", "a"]` verbatim, and the sibling
after `b` in the new order is `a`. -/
theorem reorder_children_amended_witness :
    alookup sBase.children_map "base" = some ["a", "b"] ∧
    (∃ s', sBase.reorder_children "base" ["b", "a"] = Except.ok s' ∧
      s'.children_of "base" = ["b", "a"] ∧
      s' = { sBase with children_map := ainsert sBase.children_map "base" ["b", "a"] }) ∧
    nextSibling ["b", "a"] "b" = some "a" :=
  ⟨by decide,
    ((reorder_children_amended.2 sBase "base" ["b", "a"] ["a", "b"] (by decide)).2.1
      (by decide)),
    by decide⟩

/-- **C5** (confirmed).  Every graph reachable from the fresh state by any
sequence of `new_stack` / `add_child` / `reorder_children` calls (failing
calls leave the graph unchanged) satisfies, in every stack: the key-level
tree invariant `StackInv`, and its claim-level reading `StackSpec` —
`children[p]` contains `c` iff `branches[c].parent = some p`, every
non-root branch's parent resolves in the stack's `branches` map, and the
root is the unique parentless branch. -/
theorem mutation_sequences_preserve_tree_invariant (ops : List Op) :
    ∀ e ∈ (runOps ops).stacks, StackInv e.2 ∧ StackSpec e.2 :=
  fun e he => ⟨graphInv_runOps ops e he, stackSpec_of_inv (graphInv_runOps ops e he)⟩

/-- **C5** witness: the invariants hold for the concrete stack built by
`new_stack` followed by two `add_child` calls. -/
theorem mutation_sequences_preserve_tree_invariant_witness :
    ("s", sRAB) ∈
      (runOps [Op.newStack "s" "R" "me", Op.addChild "s" "R" "A" none,
        Op.addChild "s" "A" "B" none]).stacks ∧
    (StackInv sRAB ∧ StackSpec sRAB) :=
  ⟨by decide,
    mutation_sequences_preserve_tree_invariant
      [Op.newStack "s" "R" "me", Op.addChild "s" "R" "A" none, Op.addChild "s" "A" "B" none]
      ("s", sRAB) (by decide)⟩

/-- **C9** (confirmed).  The breadth-first walk of `Stack::descendants`
yields the start branch first (for any stack, start branch and positive
fuel); on the stack with root `R`, child `A`, grandchild `B`, every run
with fuel at least three yields exactly `["R", "A", "B"]` with an
exhausted queue — the sequence is finite, and since each call builds a
fresh queue, any two complete iterations produce this same sequence
(restartability). -/
theorem descendants_bfs :
    (∀ (s : Stack) (b : String) (n : Nat),
      ((s.descendRun (n + 1) [b]).1).head? = some b) ∧
    (∀ m, 3 ≤ m → sRAB.descendRun m ["R"] = (["R", "A", "B"], [])) := by
  constructor
  · intro s b n
    rfl
  · intro m hm
    exact descendRun_stable sRAB 3 m ["R"] ["R", "A", "B"] (by decide) hm

/-- **C9** witness: the head property at fuel one and the complete run at
fuel five. -/
theorem descendants_bfs_witness :
    (sRAB.descendRun 1 ["R"]).1.head? = some "R" ∧
    (3 ≤ 5 ∧ sRAB.descendRun 5 ["R"] = (["R", "A", "B"], [])) :=
  ⟨descendants_bfs.1 sRAB "R" 0, by decide, descendants_bfs.2 5 (by decide)⟩

/-- **C10** (confirmed).  For a name `b` with no `children_map` entry in
stack `s`, `descendants(b)` neither errors nor loops: a missing entry is
treated as "no children", so for every fuel the run yields exactly `[b]`
with an exhausted queue, and `children_of b` is the empty slice. -/
theorem descendants_unknown_branch (s : Stack) (b : String)
    (h : alookup s.children_map b = none) :
    (∀ n, s.descendRun (n + 1) [b] = ([b], [])) ∧ s.children_of b = [] := by
  constructor
  · intro n
    have hq : ([] : List String) ++ (alookup s.children_map b).getD [] = [] := by
      rw [h]
      rfl
    show (b :: (s.descendRun n ([] ++ (alookup s.children_map b).getD [])).1,
      (s.descendRun n ([] ++ (alookup s.children_map b).getD [])).2) = ([b], [])
    rw [hq, descendRun_nil]
  · unfold Stack.children_of
    rw [h]
    rfl

/-- **C10** witness: applied to `sRAB` and the unknown name `Z`. -/
theorem descendants_unknown_branch_witness :
    alookup sRAB.children_map "Z" = none ∧
    sRAB.descendRun 1 ["Z"] = (["Z"], []) ∧ sRAB.children_of "Z" = [] :=
  ⟨by decide, (descendants_unknown_branch sRAB "Z" (by decide)).1 0,
    (descendants_unknown_branch sRAB "Z" (by decide)).2⟩

/-- **C7** (corrected), counterexample.  `current_tip` iterates the
`children` map, which is a Rust `HashMap` with *unspecified* iteration
order.  On the fan-out graph `gFan` (built by the the builder from
`[c0, c0, c0]`, leaves `root/1` and `root/2`), the key-insertion order
yields leaf `root/1` while the equally legitimate iteration order
`ordFanB` — a permutation of the same entries — yields leaf `root/2`:
the returned leaf is not the deterministic "first leaf in
branch-insertion order" the claim states. -/
theorem current_tip_order_dependent_counterexample :
    fromCommits [mkCommit "c000000", mkCommit "c000000", mkCommit "c000000"] =
      Except.ok gFan ∧
    List.Perm ordFanB gFan.children ∧
    currentTipWith gFan.children gFan = some ("root/1", "c000000") ∧
    currentTipWith ordFanB gFan = some ("root/2", "c000000") ∧
    (some (("root/2" : String), ("c000000" : String)) ≠ some ("root/1", "c000000")) := by
  exact ⟨by decide, by decide, rfl, rfl, by decide⟩

/-- **C7** (corrected), amended claim.  For every iteration order `ord`
(any permutation of the `children` entries, since `HashMap` promises no
particular one): if `current_tip` returns `some (b, c)` then `b` is a
leaf (its children list is empty) and `c` is that branch's tip from
`commits`; and — provided every branch of the `children` map has a
`commits` entry, as the builder guarantees — it returns `none` exactly
when no branch has an empty children list.  With several leaves the
choice depends on the iteration order, so it is not insertion-order
deterministic. -/
theorem current_tip_amended (g : CoreStackGraph) (ord : List (String × List String))
    (hperm : ord.Perm g.children) (hnd : (g.children.map Prod.fst).Nodup)
    (htot : ∀ e ∈ g.children, (alookup g.commits e.1).isSome = true) :
    (∀ b c, currentTipWith ord g = some (b, c) →
      alookup g.children b = some [] ∧ alookup g.commits b = some c) ∧
    (currentTipWith ord g = none ↔ ∀ e ∈ g.children, e.2 ≠ []) := by
  constructor
  · intro b c htip
    unfold currentTipWith at htip
    rcases hf : ord.find? (fun p => p.2.isEmpty) with _ | e
    · rw [hf] at htip
      cases htip
    · rw [hf] at htip
      dsimp only at htip
      have hpred : e.2 = [] := by
        have := List.find?_some hf
        simpa [List.isEmpty_iff] using this
      have hmemg : e ∈ g.children := hperm.subset (List.mem_of_find?_eq_some hf)
      have hlook : alookup g.children e.1 = some e.2 :=
        alookup_eq_some_of_mem_nodup hnd (by simpa using hmemg)
      rcases hcl : alookup g.commits e.1 with _ | cc
      · rw [hcl] at htip
        cases htip
      · rw [hcl] at htip
        simp only [Option.some.injEq, Prod.mk.injEq] at htip
        obtain ⟨hb, hcc⟩ := htip
        refine ⟨?_, ?_⟩
        · rw [← hb, hlook, hpred]
        · rw [← hb, hcl, hcc]
  · constructor
    · intro hnone e he
      unfold currentTipWith at hnone
      rcases hf : ord.find? (fun p => p.2.isEmpty) with _ | e0
      · have hall := List.find?_eq_none.mp hf
        intro hcontra
        exact absurd (by simp [hcontra] : e.2.isEmpty = true)
          (by simpa using hall e (hperm.symm.subset he))
      · rw [hf] at hnone
        dsimp only at hnone
        have hmemg : e0 ∈ g.children := hperm.subset (List.mem_of_find?_eq_some hf)
        rcases hcl : alookup g.commits e0.1 with _ | cc
        · have := htot e0 hmemg
          rw [hcl] at this
          cases this
        · rw [hcl] at hnone
          cases hnone
    · intro hall
      unfold currentTipWith
      rcases hf : ord.find? (fun p => p.2.isEmpty) with _ | e0
      · rw [hf]
      · exfalso
        have hpred : e0.2 = [] := by
          have := List.find?_some hf
          simpa [List.isEmpty_iff] using this
        exact hall e0 (hperm.subset (List.mem_of_find?_eq_some hf)) hpred

/-- **C7** witness: the amended claim applied to `gFan` with the
insertion-order iteration. -/
theorem current_tip_amended_witness :
    (∀ b c, currentTipWith gFan.children gFan = some (b, c) →
      alookup gFan.children b = some [] ∧ alookup gFan.commits b = some c) ∧
    (currentTipWith gFan.children gFan = none ↔ ∀ e ∈ gFan.children, e.2 ≠ []) :=
  current_tip_amended gFan gFan.children (List.Perm.refl _) (by decide) (by decide)

/-- **C2** (corrected), counterexample.  On the history
`[c1, c2, c3, c4]` with `id(c4) = id(c2)` (three distinct commits, then
`c2` reused), the builder does **not** fork: when `c4` is processed the
branch map's only tip is `c3` — `c2` stopped being a tip when `c3`
extended the branch — so the lookup misses and the commit merely extends
the current branch.  The result has exactly **one** branch (tip `c2`),
not the two branches the claim describes. -/
theorem builder_fork_stale_tip_counterexample :
    fromCommits histC2 = Except.ok
      { parents := [("root", none)], children := [("root", [])],
        commits := [("root", "aaaaaa2")] } ∧
    (fromCommits histC2).map (fun g => g.commits.length) = Except.ok 1 ∧
    (1 : Nat) ≠ 2 := by
  exact ⟨by decide, by decide, by decide⟩

/-- **C2** (corrected), amended claim.  The general fork rule holds with
"current tip" in place of "fork point": whenever a commit's id equals
the **current** tip of some existing branch (as found by the scan of the
branch→tip map), a new child named `{parent}/{k}` is created, where `k`
is the 1-based count of the parent's existing children; it is attached
under the parent (appended to its child list, registered in `parents`,
given an empty child list and the commit as tip) and becomes the current
branch.  The concrete two-branch example requires the repeated id to
arrive while still a tip: `[c1, c2, c2, c3]` yields the original branch
with tip `c2` (the fork point, not `c3`) and child `root/1` with tip
`c3`. -/
theorem builder_fork_rule_amended :
    (∀ (g : CoreStackGraph) (current : String) (c : CoreCommit) (parentBranch tip : String),
      g.commits.find? (fun p => p.2 == c.id) = some (parentBranch, tip) →
      branchNameValid (parentBranch ++ "/" ++
        natRepr (((alookup g.children parentBranch).getD []).length + 1)) = true →
      ∃ g', stepCommit g current c =
          Except.ok (g', parentBranch ++ "/" ++
            natRepr (((alookup g.children parentBranch).getD []).length + 1)) ∧
        alookup g'.parents (parentBranch ++ "/" ++
          natRepr (((alookup g.children parentBranch).getD []).length + 1)) =
          some (some parentBranch) ∧
        alookup g'.children (parentBranch ++ "/" ++
          natRepr (((alookup g.children parentBranch).getD []).length + 1)) = some [] ∧
        (alookup g'.children parentBranch).getD [] =
          (alookup g.children parentBranch).getD [] ++
            [parentBranch ++ "/" ++
              natRepr (((alookup g.children parentBranch).getD []).length + 1)] ∧
        alookup g'.commits (parentBranch ++ "/" ++
          natRepr (((alookup g.children parentBranch).getD []).length + 1)) = some c.id) ∧
    fromCommits histFork = Except.ok
      { parents := [("root", none), ("root/1", some "root")],
        children := [("root", ["root/1"]), ("root/1", [])],
        commits := [("root", "aaaaaa2"), ("root/1", "aaaaaa3")] } := by
  constructor
  · intro g current c parentBranch tip hfind hvalid
    unfold stepCommit
    rw [hfind]
    dsimp only
    simp only [hvalid, if_true]
    have hne : parentBranch ++ "/" ++
        natRepr (((alookup g.children parentBranch).getD []).length + 1) ≠ parentBranch :=
      (string_ne_append_slash parentBranch _).symm
    refine ⟨_, rfl, ?_, ?_, ?_, ?_⟩
    · exact alookup_ainsert_self _ _ _
    · exact alookup_ainsert_self _ _ _
    · rw [alookup_ainsert_ne _ _ _ _ hne, alookup_apushChild_self]
      rfl
    · exact alookup_ainsert_self _ _ _
  · decide

/-- **C2** witness: the fork rule applied at the state `gPreFork`, where
the incoming commit repeats the current tip `c2`: the child `root/1` is
created, attached under `root` and becomes current. -/
theorem builder_fork_rule_amended_witness :
    gPreFork.commits.find? (fun p => p.2 == (mkCommit "aaaaaa2").id) =
      some ("root", "aaaaaa2") ∧
    branchNameValid ("root" ++ "/" ++
      natRepr (((alookup gPreFork.children "root").getD []).length + 1)) = true ∧
    (∃ g', stepCommit gPreFork "root" (mkCommit "aaaaaa2") =
        Except.ok (g', "root" ++ "/" ++
          natRepr (((alookup gPreFork.children "root").getD []).length + 1)) ∧
      alookup g'.parents ("root" ++ "/" ++
        natRepr (((alookup gPreFork.children "root").getD []).length + 1)) =
        some (some "root") ∧
      alookup g'.children ("root" ++ "/" ++
        natRepr (((alookup gPreFork.children "root").getD []).length + 1)) = some [] ∧
      (alookup g'.children "root").getD [] =
        (alookup gPreFork.children "root").getD [] ++
          ["root" ++ "/" ++
            natRepr (((alookup gPreFork.children "root").getD []).length + 1)] ∧
      alookup g'.commits ("root" ++ "/" ++
        natRepr (((alookup gPreFork.children "root").getD []).length + 1)) =
        some (mkCommit "aaaaaa2").id) :=
  ⟨by decide, by decide,
    builder_fork_rule_amended.1 gPreFork "root" (mkCommit "aaaaaa2") "root" "aaaaaa2"
      (by decide) (by decide)⟩

/-- **C8** (code_bug).  `from_commits` detects fork points by rescanning
the whole branch→tip map per commit
(`g.commits.iter().find(..)`), not by an `O(1)` reverse index — despite
its own doc comment promising an `O(n)` algorithm.  The instrumented
builder (proved to compute the same graph as `from_commits`) counts the
tip comparisons: on the pair family the 16-commit history costs 71
comparisons and the 32-commit history 271 — doubling the input roughly
quadruples the work (the cost is `k² + k - 1` for `2k` commits), where a
lock-step reverse index would spend one lookup per commit. -/
theorem from_commits_rescans_cost :
    (fromCommitsCost (histPairs 8)).map (fun r => (r.1.commits.length, r.2)) =
      Except.ok (9, 71) ∧
    (histPairs 8).length = 16 ∧
    (fromCommitsCost (histPairs 16)).map (fun r => (r.1.commits.length, r.2)) =
      Except.ok (17, 271) ∧
    (histPairs 16).length = 32 ∧
    (fromCommitsCost (histPairs 16)).map Prod.fst = fromCommits (histPairs 16) :=
  ⟨by decide, by decide, by decide, by decide, fromCommitsCost_fst _⟩
